import Mathlib

/-!
# Verification of the GitHub-Readme-Bot extraction/prompt pipeline (`src/llm.py`)

Shallow embedding of the repository's single source file `llm.py`.
Strings are modelled as `List Char` (Python `str` is a sequence of code
points).  External HTTP calls and the LLM completion are modelled as
oracle parameters recording their observable outcomes; the embedding
follows the source's control flow, including its `try/except` structure
and the `continue` guards, faithfully.
-/

set_option maxRecDepth 10000

namespace ReadmeBot

/-- Whitespace characters stripped by Python's `str.strip()` (ASCII range). -/
def isWS (c : Char) : Bool :=
  c = ' ' || c = '\t' || c = '\n' || c = '\r' || c = '\x0b' || c = '\x0c'

/-- Python `s.strip()`: drop leading and trailing whitespace
(`llm.py` line 31, `cleaned.strip()`). -/
def pyStrip (s : List Char) : List Char :=
  ((s.dropWhile isWS).reverse.dropWhile isWS).reverse

/-- Index of the first occurrence of `pat` in `s` (leftmost match of a
literal pattern, as Python's `re` scans). -/
def findIdx (pat : List Char) : List Char → Option Nat
  | [] => if pat.isEmpty then some 0 else none
  | c :: t => if pat.isPrefixOf (c :: t) then some 0 else (findIdx pat t).map (· + 1)

/-- Python `pat in s` substring test (used for excluded path substrings,
`llm.py` line 111). -/
def containsSub (pat s : List Char) : Bool := (findIdx pat s).isSome

/-- The literal opening reasoning marker of `llm.py` line 29. -/
def tOpen : List Char := "<think>".toList

/-- The literal closing reasoning marker of `llm.py` line 29. -/
def tClose : List Char := "</think>".toList

/-- `re.sub(r'<think>.*?</think>', '', s, flags=re.DOTALL)` (`llm.py` line 29),
with an explicit fuel (one unit per removed span; `s.length` is ample since
every removal consumes at least 15 characters).  The regex engine removes
non-overlapping matches left to right: each match starts at the first
occurrence of the opening marker that is followed by a closing marker, the
non-greedy body ends at the first closing marker after the opening, and
scanning resumes after the removed span. -/
def removeThinkFuel : Nat → List Char → List Char
  | 0, s => s
  | f + 1, s =>
    match findIdx tOpen s with
    | none => s
    | some i =>
      match findIdx tClose (s.drop (i + 7)) with
      | none => s
      | some j => s.take i ++ removeThinkFuel f ((s.drop (i + 7)).drop (j + 8))

/-- The reasoning-span removal pass of `clean_output` (`llm.py` line 29). -/
def removeThink (s : List Char) : List Char := removeThinkFuel s.length s

/-- State machine for `re.sub(r'\n{3,}', '\n\n', s)` (`llm.py` line 30):
`n` counts the newlines of the pending run; a maximal run of three or more
newlines is emitted as exactly two. -/
def collapseAux : List Char → Nat → List Char
  | [], n => List.replicate (if 3 ≤ n then 2 else n) '\n'
  | c :: t, n =>
    if c = '\n' then collapseAux t (n + 1)
    else List.replicate (if 3 ≤ n then 2 else n) '\n' ++ c :: collapseAux t 0

/-- The newline-collapsing pass of `clean_output` (`llm.py` line 30). -/
def collapseNL (s : List Char) : List Char := collapseAux s 0

/-- `clean_output` (`llm.py` lines 28-33): remove `<think>...</think>`
spans, collapse runs of 3+ newlines to 2, strip surrounding whitespace. -/
def cleanOutput (s : List Char) : List Char :=
  pyStrip (collapseNL (removeThink s))

/-! ## URL parsing (`llm.py` line 40) -/

/-- Python `str.split('/')`: split at every `'/'`, keeping empty pieces. -/
def splitOnSlash : List Char → List (List Char)
  | [] => [[]]
  | c :: t =>
    if c = '/' then [] :: splitOnSlash t
    else
      match splitOnSlash t with
      | [] => [[c]]
      | h :: r => (c :: h) :: r

/-- Python `url.rstrip('/')`: drop trailing `'/'` characters. -/
def rstripSlash (s : List Char) : List Char :=
  (s.reverse.dropWhile (fun c => c = '/')).reverse

/-- `_, _, _, owner, repo = repo_url.rstrip('/').split('/')` (`llm.py`
line 40).  The unpacking succeeds exactly when the split yields five
pieces; otherwise Python raises `ValueError`, modelled as `none`. -/
def parseRepoUrl (url : List Char) : Option (List Char × List Char) :=
  match splitOnSlash (rstripSlash url) with
  | [_, _, _, owner, repo] => some (owner, repo)
  | _ => none

/-! ## Tree filtering and content sampling (`llm.py` lines 88-134) -/

/-- One entry of the recursive tree listing (`tree_data['tree']` items):
`path` is `item.get('path', '')` and `type` is the entry's `type` field
(any value other than `"blob"` — including a missing one — fails the
`== 'blob'` test). -/
structure TreeItem where
  path : List Char
  type : List Char
deriving DecidableEq

/-- The binary-extension set of `llm.py` lines 91-95. -/
def binaryExtensions : List (List Char) :=
  [".png".toList, ".jpg".toList, ".jpeg".toList, ".gif".toList, ".ico".toList,
   ".pdf".toList, ".zip".toList, ".tar".toList, ".gz".toList, ".rar".toList,
   ".7z".toList, ".exe".toList, ".dll".toList, ".so".toList, ".dylib".toList,
   ".class".toList, ".pyc".toList, ".pyo".toList, ".pyd".toList, ".db".toList,
   ".sqlite".toList, ".sqlite3".toList, ".bin".toList, ".dat".toList, ".iso".toList]

/-- The excluded path substrings of `llm.py` lines 97-100. -/
def excludedPaths : List (List Char) :=
  [".git/".toList, ".github/workflows/".toList, "node_modules/".toList,
   "venv/".toList, "env/".toList, "__pycache__/".toList, "dist/".toList,
   "build/".toList, "coverage/".toList, ".pytest_cache/".toList]

/-- The filter condition of `llm.py` lines 109-111: type is `blob`, the
path ends with no binary extension, and the path contains no excluded
substring. -/
def isCandidate (it : TreeItem) : Bool :=
  it.type == "blob".toList
    && !(binaryExtensions.any fun e => e.isSuffixOf it.path)
    && !(excludedPaths.any fun e => containsSub e it.path)

/-- Whether the loop issues a per-file content request for `it`: the
`if not path: continue` guard (`llm.py` lines 104-105) runs first, then
the candidate filter. -/
def fetchIssued (it : TreeItem) : Bool :=
  !it.path.isEmpty && isCandidate it

/-- Observable outcome of one per-file content request
(`llm.py` lines 113-131): `fail` covers a non-200 status or any raised
exception (outer `except`), `noContent` a 200 response whose `content`
field is missing or empty, `binary` a payload that fails UTF-8 decoding
(`except UnicodeDecodeError`), `text s` a successfully decoded payload. -/
inductive FetchResult where
  | fail
  | noContent
  | binary
  | text (s : List Char)
deriving DecidableEq

/-- The excerpt appended for a non-empty decoded file
(`llm.py` line 124): `f"\n### {path}\n` ```...``` `"` with the first 1000
characters of the content and the unconditional `...` marker. -/
def excerptFor (path s : List Char) : List Char :=
  "\n### ".toList ++ path ++ "\n```\n".toList ++ s.take 1000 ++ "...\n```\n".toList

/-- Contribution of one tree entry to the content block
(`llm.py` lines 109-131): nothing unless a fetch is issued, the fetch
decodes to text, and the stripped content is non-empty. -/
def processItem (fetch : List Char → FetchResult) (it : TreeItem) : List Char :=
  if fetchIssued it then
    match fetch it.path with
    | .text s => if pyStrip s ≠ [] then excerptFor it.path s else []
    | _ => []
  else []

/-- Contribution of one tree entry to the tree-listing block
(`llm.py` lines 103-107): `- <path>\n` unless the path is empty. -/
def treeLine (it : TreeItem) : List Char :=
  if it.path.isEmpty then [] else "- ".toList ++ it.path ++ "\n".toList

/-- The tree block `tree` built by the loop (`llm.py` lines 88, 107). -/
def treeBlock (items : List TreeItem) : List Char :=
  "File Structure:\n".toList ++ (items.map treeLine).flatten

/-- The concatenated excerpt contributions of the loop. -/
def contribs (fetch : List Char → FetchResult) (items : List TreeItem) : List Char :=
  (items.map (processItem fetch)).flatten

/-- The content block `content` built by the loop (`llm.py` lines 89, 124). -/
def contentBlock (fetch : List Char → FetchResult) (items : List TreeItem) : List Char :=
  "Code Analysis:\n".toList ++ contribs fetch items

/-! ## Metadata summary (`llm.py` lines 61-71) -/

/-- Decimal rendering of a natural number, as Python's `str(int)` inside
an f-string. -/
def natToStr (n : Nat) : List Char := Nat.toDigits 10 n

/-- The metadata JSON `repo_data`.  A field is `none` when the key is
absent from the response, which is when Python's `dict.get` falls back
to its default (`llm.py` lines 63-73). -/
structure Meta where
  name : Option (List Char)
  description : Option (List Char)
  language : Option (List Char)
  topics : Option (List (List Char))
  stars : Option Nat
  forks : Option Nat
  createdAt : Option (List Char)
  updatedAt : Option (List Char)

/-- `repo_data.get('name')` rendered in the f-string: a missing key gives
`None`, printed as `"None"`. -/
def renderName (o : Option (List Char)) : List Char :=
  o.getD "None".toList

/-- `', '.join(topics)` (`llm.py` line 66). -/
def joinComma (l : List (List Char)) : List Char :=
  (l.intersperse ", ".toList).flatten

/-- The summary f-string of `llm.py` lines 61-71, with its literal
indentation; adjacent literal segments are split at the `- Label: `
markers (concatenation of string literals, equal to the single literal). -/
def summaryBlock (m : Meta) : List Char :=
  "\n            Repository Information:\n            ".toList
    ++ "- Name: ".toList ++ renderName m.name
    ++ "\n            ".toList
    ++ "- Description: ".toList ++ m.description.getD "No description provided".toList
    ++ "\n            ".toList
    ++ "- Primary Language: ".toList ++ m.language.getD "Not specified".toList
    ++ "\n            ".toList
    ++ "- Topics: ".toList ++ joinComma (m.topics.getD ["None specified".toList])
    ++ "\n            ".toList
    ++ "- Stars: ".toList ++ natToStr (m.stars.getD 0)
    ++ "\n            ".toList
    ++ "- Forks: ".toList ++ natToStr (m.forks.getD 0)
    ++ "\n            ".toList
    ++ "- Created: ".toList ++ m.createdAt.getD "Unknown".toList
    ++ "\n            ".toList
    ++ "- Last Updated: ".toList ++ m.updatedAt.getD "Unknown".toList
    ++ "\n            ".toList

/-! ## The pipeline (`get_repo_data` and `analyze_repo_sync`) -/

/-- Requests issued against the GitHub API during one `get_repo_data`
invocation. -/
inductive Req where
  | meta
  | tree
  | file (path : List Char)
deriving DecidableEq

/-- Oracle for the GitHub API: status codes and bodies of the metadata and
tree requests, the parsed payloads used on success, and the per-file
content outcomes. -/
structure RepoApi where
  metaStatus : Nat
  metaBody : List Char
  meta : Meta
  treeStatus : Nat
  treeBody : List Char
  tree : List TreeItem
  file : List Char → FetchResult

/-- Message of the `ValueError` raised by the failed tuple unpacking at
`llm.py` line 40 (exact text supplied by the Python runtime; no claim
depends on it). -/
def unpackErrMsg : List Char := "ValueError".toList

/-- Wrapping applied by the `except` at `llm.py` lines 136-138. -/
def wrapErr (inner : List Char) : List Char :=
  "Failed to analyze repository: ".toList ++ inner

/-- The error text raised for a non-200 response
(`llm.py` lines 56 and 83). -/
def httpErrMsg (status : Nat) (body : List Char) : List Char :=
  "GitHub API returned ".toList ++ natToStr status ++ ": ".toList ++ body

/-- `get_repo_data` (`llm.py` lines 35-138): returns either the wrapped
error message that the function raises, or the `(summary, tree, content)`
triple — paired with the list of API requests it issued, in order. -/
def getRepoData (api : RepoApi) (url : List Char) :
    Except (List Char) (List Char × List Char × List Char) × List Req :=
  match parseRepoUrl url with
  | none => (.error (wrapErr unpackErrMsg), [])
  | some _ =>
    if api.metaStatus ≠ 200 then
      (.error (wrapErr (httpErrMsg api.metaStatus api.metaBody)), [.meta])
    else if api.treeStatus ≠ 200 then
      (.error (wrapErr (httpErrMsg api.treeStatus api.treeBody)), [.meta, .tree])
    else
      (.ok (summaryBlock api.meta, treeBlock api.tree, contentBlock api.file api.tree),
       [.meta, .tree] ++ (api.tree.filter fetchIssued).map (fun it => .file it.path))

/-- The date extracted by `extract_current_info` from the hard-coded
`log_text` of `llm.py` line 146. -/
def currentDate : List Char := "2025-02-02 10:45:04".toList

/-- The attribution footer appended on success (`llm.py` line 201). -/
def footer : List Char :=
  "\n\n---\n*Generated by GH-Readme-Bot on ".toList ++ currentDate ++ " UTC*".toList

/-- The error-report template of `llm.py` lines 206-218 (only reachable
with `current_date` bound, i.e. after `get_repo_data` succeeded). -/
def errorReport (msg : List Char) : List Char :=
  "\n# Repository Analysis Error\n\nAn error occurred while analyzing the repository:\n`".toList
    ++ msg
    ++ "`\n\nPlease check:\n1. Repository access permissions\n2. API key configuration\n3. Network connectivity\n\n---\n*Generated by GH-Readme-Bot on ".toList
    ++ currentDate ++ " UTC*".toList

/-- Python exceptions that can escape `analyze_repo_sync`. -/
inductive PyExc where
  | unboundLocal
deriving DecidableEq

/-- Observable outcome of the completion call and everything after
`current_date` is assigned (`llm.py` lines 149-200): `ok text` is a
successful completion, `exc msg` any exception raised there (timeout,
missing key, empty choices, ...), with `msg` its `str()`. -/
inductive Completion where
  | ok (text : List Char)
  | exc (msg : List Char)

/-- `analyze_repo_sync` (`llm.py` lines 140-218).  When `get_repo_data`
raises, the `except` handler's f-string reads `current_date`, a local
assigned only at line 147 *after* the `get_repo_data` call, so the
handler itself raises `UnboundLocalError`, which propagates to the
caller.  When the failure happens after line 147, the handler returns the
error report. -/
def analyzeRepoSync (api : RepoApi) (comp : Completion) (url : List Char) :
    Except PyExc (List Char) :=
  match (getRepoData api url).1 with
  | .error _ => .error .unboundLocal
  | .ok _ =>
    match comp with
    | .exc msg => .ok (errorReport msg)
    | .ok text => .ok (cleanOutput (text ++ footer))

end ReadmeBot

/-! ## Lemmas about `findIdx` (literal substring search) -/

namespace ReadmeBot

theorem findIdx_nil_of_ne (pat : List Char) (h : pat ≠ []) : findIdx pat [] = none := by
  simp [findIdx, List.isEmpty_iff, h]

theorem findIdx_some_bound {pat s : List Char} {k : Nat}
    (h : findIdx pat s = some k) : k + pat.length ≤ s.length := by
  induction s generalizing k with
  | nil =>
    simp only [findIdx] at h
    by_cases hp : pat.isEmpty
    · rw [if_pos hp] at h
      have hk : k = 0 := (Option.some.inj h).symm
      have hpl : pat = [] := List.isEmpty_iff.mp hp
      subst hk
      subst hpl
      omega
    · rw [if_neg hp] at h
      exact Option.noConfusion h
  | cons c t ih =>
    simp only [findIdx] at h
    by_cases hp : pat.isPrefixOf (c :: t)
    · rw [if_pos hp] at h
      have hk : k = 0 := (Option.some.inj h).symm
      have hpre : pat <+: c :: t := List.isPrefixOf_iff_prefix.mp hp
      have := hpre.length_le
      omega
    · rw [if_neg hp] at h
      cases hk : findIdx pat t with
      | none => rw [hk] at h; exact Option.noConfusion h
      | some k' =>
        rw [hk] at h
        simp at h
        have := ih hk
        simp only [List.length_cons]
        omega

theorem findIdx_ne_nil_of_some {pat s : List Char} {k : Nat}
    (hpat : pat ≠ []) (h : findIdx pat s = some k) : s ≠ [] := by
  intro hs
  subst hs
  rw [findIdx_nil_of_ne pat hpat] at h
  exact Option.noConfusion h

/-- A nonempty pattern matching as a prefix of `c :: t` pins down `c`. -/
theorem head_eq_of_isPrefixOf {p : Char} {pt : List Char} {c : Char} {t : List Char}
    (h : (p :: pt).isPrefixOf (c :: t) = true) : p = c := by
  simp only [List.isPrefixOf, Bool.and_eq_true, beq_iff_eq] at h
  exact h.1

/-- First occurrence of a pattern starting with `ch` in `a ++ pat ++ r`
is at `a.length` when `a` avoids `ch`. -/
theorem findIdx_append_pat {ch : Char} {pat : List Char} (a r : List Char)
    (hne : pat ≠ []) (hh : pat.head? = some ch) (ha : ∀ c ∈ a, c ≠ ch) :
    findIdx pat (a ++ (pat ++ r)) = some a.length := by
  induction a with
  | nil =>
    have hpre : pat.isPrefixOf (pat ++ r) = true :=
      List.isPrefixOf_iff_prefix.mpr (List.prefix_append pat r)
    cases pat with
    | nil => exact absurd rfl hne
    | cons p pt =>
      rw [List.cons_append] at hpre
      simp only [List.nil_append, findIdx, List.length_nil, List.append_eq,
        List.cons_append]
      rw [if_pos hpre]
  | cons c t ih =>
    have hct : c ≠ ch := ha c (List.mem_cons_self c t)
    have ih' := ih (fun x hx => ha x (List.mem_cons_of_mem c hx))
    cases pat with
    | nil => exact absurd rfl hne
    | cons p pt =>
      have hp : p = ch := Option.some.inj hh
      show findIdx (p :: pt) ((c :: t) ++ ((p :: pt) ++ r)) = some (c :: t).length
      rw [List.cons_append]
      simp only [findIdx, List.append_eq, List.cons_append]
      simp only [List.cons_append] at ih'
      have hpne : ¬ ((p :: pt).isPrefixOf (c :: (t ++ p :: (pt ++ r))) = true) := by
        intro hpre
        exact hct ((head_eq_of_isPrefixOf hpre).symm.trans hp)
      rw [if_neg hpne, ih']
      simp

theorem findIdx_none_of_avoid {ch : Char} {pat : List Char} (s : List Char)
    (hh : pat.head? = some ch) (hs : ∀ c ∈ s, c ≠ ch) :
    findIdx pat s = none := by
  induction s with
  | nil =>
    cases pat with
    | nil => simp at hh
    | cons p pt => simp [findIdx]
  | cons c t ih =>
    have hct : c ≠ ch := hs c (List.mem_cons_self c t)
    have ih' := ih (fun x hx => hs x (List.mem_cons_of_mem c hx))
    cases pat with
    | nil => simp at hh
    | cons p pt =>
      have hp : p = ch := Option.some.inj hh
      have hpne : ¬ ((p :: pt).isPrefixOf (c :: t) = true) := by
        intro hpre
        exact hct ((head_eq_of_isPrefixOf hpre).symm.trans hp)
      simp [findIdx, hpne, ih']

theorem containsSub_correct (pat s : List Char) :
    containsSub pat s = true ↔ pat <:+: s := by
  induction s with
  | nil =>
    constructor
    · intro h
      simp only [containsSub, findIdx] at h
      by_cases hp : pat.isEmpty
      · simp [List.isEmpty_iff.mp hp]
      · rw [if_neg hp] at h
        exact absurd h (by simp)
    · intro h
      have := List.infix_nil.mp h
      subst this
      simp [containsSub, findIdx]
  | cons c t ih =>
    constructor
    · intro h
      simp only [containsSub, findIdx] at h
      by_cases hp : pat.isPrefixOf (c :: t)
      · exact (List.isPrefixOf_iff_prefix.mp hp).isInfix
      · rw [if_neg hp] at h
        have ht : containsSub pat t = true := by
          simp only [containsSub]
          cases hk : findIdx pat t with
          | none => rw [hk] at h; exact absurd h (by simp)
          | some k => simp
        exact (ih.mp ht).trans (List.infix_cons (List.infix_refl t))
    · intro h
      rcases List.infix_cons_iff.mp h with hpre | hinf
      · have hb : pat.isPrefixOf (c :: t) = true := List.isPrefixOf_iff_prefix.mpr hpre
        simp [containsSub, findIdx, hb]
      · have ht := ih.mpr hinf
        simp only [containsSub, findIdx]
        by_cases hp : pat.isPrefixOf (c :: t)
        · simp [hp]
        · rw [if_neg hp]
          simp only [containsSub] at ht
          cases hk : findIdx pat t with
          | none => rw [hk] at ht; exact absurd ht (by simp)
          | some k => simp

end ReadmeBot

/-! ## Lemmas about `removeThink` -/

namespace ReadmeBot

theorem tOpen_ne_nil : tOpen ≠ [] := by decide

theorem tClose_ne_nil : tClose ≠ [] := by decide

theorem tOpen_head : tOpen.head? = some '<' := by decide

theorem tClose_head : tClose.head? = some '<' := by decide

theorem tOpen_length : tOpen.length = 7 := by decide

theorem tClose_length : tClose.length = 8 := by decide

/-- The result of `removeThinkFuel` does not depend on the fuel once the
fuel covers the string length (every removal step costs one unit and at
least fifteen characters). -/
theorem removeThinkFuel_congr :
    ∀ (f f' : Nat) (s : List Char), s.length ≤ f → s.length ≤ f' →
      removeThinkFuel f s = removeThinkFuel f' s := by
  intro f
  induction f with
  | zero =>
    intro f' s hf _
    have : s = [] := List.length_eq_zero.mp (Nat.le_zero.mp hf)
    subst this
    cases f' with
    | zero => rfl
    | succ f'' =>
      simp [removeThinkFuel, findIdx_nil_of_ne tOpen tOpen_ne_nil]
  | succ f ih =>
    intro f' s hf hf'
    cases hi : findIdx tOpen s with
    | none =>
      cases f' with
      | zero =>
        have : s = [] := List.length_eq_zero.mp (Nat.le_zero.mp hf')
        subst this
        rfl
      | succ f'' => simp [removeThinkFuel, hi]
    | some i =>
      have hsne : s ≠ [] := findIdx_ne_nil_of_some tOpen_ne_nil hi
      have hslen : 1 ≤ s.length := List.length_pos.mpr hsne
      cases f' with
      | zero => omega
      | succ f'' =>
        cases hj : findIdx tClose (s.drop (i + 7)) with
        | none => simp [removeThinkFuel, hi, hj]
        | some j =>
          have hib : i + tOpen.length ≤ s.length := findIdx_some_bound hi
          have hjb : j + tClose.length ≤ (s.drop (i + 7)).length := findIdx_some_bound hj
          rw [tOpen_length] at hib
          rw [tClose_length] at hjb
          rw [List.length_drop] at hjb
          have hrest : ((s.drop (i + 7)).drop (j + 8)).length ≤ s.length - 15 := by
            rw [List.length_drop, List.length_drop]
            omega
          have h1 : ((s.drop (i + 7)).drop (j + 8)).length ≤ f := by omega
          have h2 : ((s.drop (i + 7)).drop (j + 8)).length ≤ f'' := by omega
          simp only [removeThinkFuel, hi, hj]
          rw [ih f'' _ h1 h2]

/-- `removeThink` consumes the leftmost marker-delimited span: with the
prefix `a` and the span body `b` free of `'<'`, the span starting at
`a.length` is removed and scanning resumes after it. -/
theorem removeThink_split (a b r : List Char)
    (ha : ∀ c ∈ a, c ≠ '<') (hb : ∀ c ∈ b, c ≠ '<') :
    removeThink (a ++ tOpen ++ b ++ tClose ++ r) = a ++ removeThink r := by
  have hassoc : a ++ tOpen ++ b ++ tClose ++ r = a ++ (tOpen ++ (b ++ (tClose ++ r))) := by
    simp [List.append_assoc]
  set s := a ++ tOpen ++ b ++ tClose ++ r with hs
  have hopen : findIdx tOpen s = some a.length := by
    rw [hassoc]
    exact findIdx_append_pat a (b ++ (tClose ++ r)) tOpen_ne_nil tOpen_head ha
  have hdrop1 : s.drop (a.length + 7) = b ++ (tClose ++ r) := by
    rw [hassoc, ← List.append_assoc a tOpen, ← tOpen_length, ← List.length_append]
    exact List.drop_left (a ++ tOpen) (b ++ (tClose ++ r))
  have hclose : findIdx tClose (s.drop (a.length + 7)) = some b.length := by
    rw [hdrop1]
    exact findIdx_append_pat b r tClose_ne_nil tClose_head hb
  have hdrop2 : (s.drop (a.length + 7)).drop (b.length + 8) = r := by
    rw [hdrop1, ← tClose_length, ← List.length_append, ← List.append_assoc]
    exact List.drop_left (b ++ tClose) r
  have htake : s.take a.length = a := by
    rw [hassoc]
    exact List.take_left a _
  have hslen : s.length = a.length + 7 + b.length + 8 + r.length := by
    rw [hassoc]
    simp [List.length_append, tOpen_length, tClose_length]
    omega
  have hpos : ∃ f, s.length = f + 1 := ⟨s.length - 1, by omega⟩
  obtain ⟨f, hf⟩ := hpos
  show removeThinkFuel s.length s = a ++ removeThink r
  rw [hf]
  simp only [removeThinkFuel, hopen, hclose, hdrop2, htake]
  have : removeThinkFuel f r = removeThinkFuel r.length r :=
    removeThinkFuel_congr f r.length r (by omega) (Nat.le_refl _)
  rw [this]
  rfl

/-- A string without the opening marker is left unchanged. -/
theorem removeThink_eq_self_of_none {s : List Char}
    (h : findIdx tOpen s = none) : removeThink s = s := by
  show removeThinkFuel s.length s = s
  cases hl : s.length with
  | zero => rfl
  | succ f => simp [removeThinkFuel, h]

/-- A string avoiding `'<'` is left unchanged. -/
theorem removeThink_eq_self_of_avoid {s : List Char}
    (h : ∀ c ∈ s, c ≠ '<') : removeThink s = s :=
  removeThink_eq_self_of_none (findIdx_none_of_avoid s tOpen_head h)

end ReadmeBot

/-! ## Lemmas about `pyStrip` -/

namespace ReadmeBot

/-- The head of `dropWhile p l`, when it exists, fails `p`. -/
theorem head?_dropWhile_not (p : Char → Bool) (l : List Char) {c : Char}
    (h : (l.dropWhile p).head? = some c) : ¬ p c = true := by
  induction l with
  | nil => simp [List.dropWhile] at h
  | cons x t ih =>
    rw [List.dropWhile_cons] at h
    by_cases hx : p x
    · rw [if_pos hx] at h
      exact ih h
    · rw [if_neg hx] at h
      have : x = c := by simpa using h
      exact this ▸ hx

/-- `dropWhile` keeps the last element of a list when the result is
nonempty. -/
theorem getLast?_dropWhile (p : Char → Bool) (l : List Char)
    (h : l.dropWhile p ≠ []) : (l.dropWhile p).getLast? = l.getLast? := by
  induction l with
  | nil => simp [List.dropWhile] at h
  | cons x t ih =>
    by_cases hx : p x
    · rw [List.dropWhile_cons, if_pos hx] at h ⊢
      have ht : t ≠ [] := by
        intro he
        subst he
        simp [List.dropWhile] at h
      rw [ih h]
      cases t with
      | nil => exact absurd rfl ht
      | cons y u => rw [List.getLast?_cons_cons]
    · rw [List.dropWhile_cons, if_neg hx]

/-- A list whose head fails `p` is unchanged by `dropWhile p`. -/
theorem dropWhile_eq_self_of_head (p : Char → Bool) (l : List Char)
    (h : ∀ c, l.head? = some c → ¬ p c = true) : l.dropWhile p = l := by
  cases l with
  | nil => rfl
  | cons x t =>
    rw [List.dropWhile_cons, if_neg (h x rfl)]

/-- `str.strip()` is idempotent. -/
theorem pyStrip_idem (s : List Char) : pyStrip (pyStrip s) = pyStrip s := by
  unfold pyStrip
  set u := s.dropWhile isWS with hu
  set v := u.reverse.dropWhile isWS with hv
  by_cases hvnil : v = []
  · simp [hvnil, List.dropWhile]
  · have hune : u ≠ [] := by
      intro he
      rw [he] at hv
      simp [List.dropWhile] at hv
      exact hvnil hv
    -- the head of `v.reverse` is the head of `u`, which fails `isWS`
    have hhead : (v.reverse).head? = u.head? := by
      rw [List.head?_reverse, hv, getLast?_dropWhile isWS u.reverse hvnil,
        List.getLast?_reverse]
    have hstep1 : v.reverse.dropWhile isWS = v.reverse := by
      apply dropWhile_eq_self_of_head
      intro c hc
      rw [hhead] at hc
      have : (u.dropWhile isWS).head? = some c := by
        rw [hu] at hc ⊢
        rwa [List.dropWhile_idempotent]
      exact head?_dropWhile_not isWS u this
    have hstep2 : v.dropWhile isWS = v := by
      apply dropWhile_eq_self_of_head
      intro c hc
      exact head?_dropWhile_not isWS u.reverse (hv ▸ hc)
    rw [hstep1, List.reverse_reverse, hstep2]

/-- The stripped string sits inside the original. -/
theorem pyStrip_within (s : List Char) : pyStrip s <:+: s := by
  unfold pyStrip
  have h1 : s.dropWhile isWS <:+ s := List.dropWhile_suffix isWS
  have h2 : (s.dropWhile isWS).reverse.dropWhile isWS <:+ (s.dropWhile isWS).reverse :=
    List.dropWhile_suffix isWS
  have h3 : ((s.dropWhile isWS).reverse.dropWhile isWS).reverse <+: s.dropWhile isWS := by
    apply List.reverse_suffix.mp
    rwa [List.reverse_reverse]
  exact h3.isInfix.trans h1.isInfix

end ReadmeBot

/-! ## Lemmas about `collapseNL` -/

namespace ReadmeBot

/-- No position of the list starts three consecutive newlines. -/
def noTriple : List Char → Bool
  | c1 :: c2 :: c3 :: t =>
    !(c1 = '\n' && c2 = '\n' && c3 = '\n') && noTriple (c2 :: c3 :: t)
  | _ => true

theorem noTriple_short {l : List Char} (h : l.length ≤ 2) : noTriple l = true := by
  match l, h with
  | [], _ => rfl
  | [c], _ => rfl
  | [c1, c2], _ => rfl

theorem noTriple_cons_false {c : Char} {t : List Char}
    (h : noTriple t = false) : noTriple (c :: t) = false := by
  match t, h with
  | [], h => exact absurd h (by simp [noTriple])
  | [c2], h => exact absurd h (by simp [noTriple])
  | c2 :: c3 :: v, h => simp [noTriple, h]

theorem noTriple_tail {c : Char} {t : List Char}
    (h : noTriple (c :: t) = true) : noTriple t = true := by
  by_contra hf
  rw [Bool.not_eq_true] at hf
  rw [noTriple_cons_false hf] at h
  exact Bool.noConfusion h

theorem noTriple_iff (l : List Char) :
    noTriple l = true ↔ ¬ (['\n', '\n', '\n'] <:+: l) := by
  constructor
  · intro h htr
    obtain ⟨a, b, hab⟩ := htr
    subst hab
    induction a with
    | nil =>
      simp only [List.nil_append, List.cons_append, noTriple] at h
      simp at h
    | cons x a' ih =>
      exact ih (noTriple_tail h)
  · intro h
    induction l with
    | nil => rfl
    | cons c t ih =>
      match t with
      | [] => rfl
      | [c2] => rfl
      | c2 :: c3 :: v =>
        have htl : noTriple (c2 :: c3 :: v) = true := by
          apply ih
          intro htr
          exact h (htr.trans (List.infix_cons (List.infix_refl _)))
        have hwin : ¬ (c = '\n' ∧ c2 = '\n' ∧ c3 = '\n') := by
          rintro ⟨h1, h2, h3⟩
          exact h ⟨[], v, by simp [h1, h2, h3]⟩
        simp only [noTriple, htl, Bool.and_true]
        simp only [Bool.not_eq_eq_eq_not, Bool.not_true, Bool.and_eq_false_imp]
        simp only [Bool.and_eq_true, decide_eq_true_eq, Bool.not_eq_true]
        intro h1
        by_contra h3
        simp only [Bool.not_eq_false, decide_eq_true_eq] at h3
        exact hwin ⟨h1.1, h1.2, h3⟩

theorem noTriple_of_sub {y' y : List Char} (hinf : y' <:+: y)
    (h : noTriple y = true) : noTriple y' = true :=
  (noTriple_iff y').mpr fun htr => (noTriple_iff y).mp h (htr.trans hinf)

theorem noTriple_cons_of_third {c1 c2 c3 : Char} {v : List Char} (h : c3 ≠ '\n') :
    noTriple (c1 :: c2 :: c3 :: v) = noTriple (c2 :: c3 :: v) := by
  simp [noTriple, h]

theorem noTriple_cons₂ {c1 c2 : Char} {w : List Char} (h : c2 ≠ '\n') :
    noTriple (c1 :: c2 :: w) = noTriple (c2 :: w) := by
  match w with
  | [] => rfl
  | c3 :: v => simp [noTriple, h]

theorem noTriple_cons₁ {c : Char} {w : List Char} (h : c ≠ '\n') :
    noTriple (c :: w) = noTriple w := by
  match w with
  | [] => rfl
  | [c2] => rfl
  | c2 :: c3 :: v => simp [noTriple, h]

/-- The output of the newline-collapsing pass never contains three
consecutive newlines. -/
theorem noTriple_collapseAux : ∀ (cs : List Char) (n : Nat),
    noTriple (collapseAux cs n) = true := by
  intro cs
  induction cs with
  | nil =>
    intro n
    apply noTriple_short
    simp only [collapseAux, List.length_replicate]
    split
    · omega
    · omega
  | cons c t ih =>
    intro n
    by_cases hc : c = '\n'
    · simpa [collapseAux, hc] using ih (n + 1)
    · have hk : (if 3 ≤ n then 2 else n) ≤ 2 := by split <;> omega
      simp only [collapseAux, if_neg hc]
      set k := if 3 ≤ n then 2 else n with hkdef
      interval_cases k
      · simpa [noTriple_cons₁ hc] using ih 0
      · rw [show List.replicate 1 '\n' ++ c :: collapseAux t 0 =
            '\n' :: c :: collapseAux t 0 from rfl]
        rw [noTriple_cons₂ hc, noTriple_cons₁ hc]
        exact ih 0
      · rw [show List.replicate 2 '\n' ++ c :: collapseAux t 0 =
            '\n' :: '\n' :: c :: collapseAux t 0 from rfl]
        rw [noTriple_cons_of_third hc, noTriple_cons₂ hc, noTriple_cons₁ hc]
        exact ih 0

theorem noTriple_collapseNL (s : List Char) : noTriple (collapseNL s) = true :=
  noTriple_collapseAux s 0

theorem replicate_append_cons (n : Nat) (x : Char) (t : List Char) :
    List.replicate n x ++ x :: t = List.replicate (n + 1) x ++ t := by
  rw [List.replicate_succ' n x, List.append_assoc]
  rfl

theorem noTriple_replicate_ge3 {n : Nat} (h : 3 ≤ n) (x : List Char) :
    noTriple (List.replicate n '\n' ++ x) = false := by
  obtain ⟨m, hm⟩ : ∃ m, n = m + 3 := ⟨n - 3, by omega⟩
  subst hm
  have : List.replicate (m + 3) '\n' = '\n' :: '\n' :: '\n' :: List.replicate m '\n' := by
    simp [List.replicate_succ]
  rw [this]
  simp [noTriple]

/-- A string without three consecutive newlines is unchanged by the
collapsing pass (stated with the pending-run accumulator). -/
theorem collapseAux_eq_self : ∀ (cs : List Char) (n : Nat),
    noTriple (List.replicate n '\n' ++ cs) = true →
    collapseAux cs n = List.replicate n '\n' ++ cs := by
  intro cs
  induction cs with
  | nil =>
    intro n h
    have hn : n ≤ 2 := by
      by_contra hgt
      rw [noTriple_replicate_ge3 (by omega) []] at h
      exact Bool.noConfusion h
    simp only [collapseAux, if_neg (by omega : ¬ 3 ≤ n), List.append_nil]
  | cons c t ih =>
    intro n h
    by_cases hc : c = '\n'
    · subst hc
      rw [replicate_append_cons] at h ⊢
      simp only [collapseAux, if_pos rfl]
      exact ih (n + 1) h
    · have hn : n ≤ 2 := by
        by_contra hgt
        rw [noTriple_replicate_ge3 (by omega) (c :: t)] at h
        exact Bool.noConfusion h
      have ht : noTriple t = true := by
        apply noTriple_of_sub _ h
        exact (List.suffix_cons c t).isInfix.trans
          ((List.suffix_append _ _).isInfix)
      simp only [collapseAux, if_neg hc, if_neg (by omega : ¬ 3 ≤ n)]
      rw [ih 0 (by simpa using ht)]
      simp

/-- A string without three consecutive newlines is a fixed point of the
collapsing pass. -/
theorem collapseNL_eq_self {s : List Char} (h : noTriple s = true) :
    collapseNL s = s := by
  have := collapseAux_eq_self s 0 (by simpa using h)
  simpa [collapseNL] using this

/-- The collapsing pass distributes over a newline-free prefix. -/
theorem collapseAux_nonNL (a z : List Char) (ha : ∀ c ∈ a, c ≠ '\n') :
    collapseAux (a ++ z) 0 = a ++ collapseAux z 0 := by
  induction a with
  | nil => rfl
  | cons c t ih =>
    have hc : c ≠ '\n' := ha c (List.mem_cons_self c t)
    have ih' := ih (fun x hx => ha x (List.mem_cons_of_mem c hx))
    show collapseAux (c :: (t ++ z)) 0 = c :: (t ++ collapseAux z 0)
    simp only [collapseAux, if_neg hc]
    rw [ih']
    rfl

/-- Entering a run of `k` newlines adds `k` to the pending count. -/
theorem collapseAux_replicate (k : Nat) (z : List Char) :
    ∀ n, collapseAux (List.replicate k '\n' ++ z) n = collapseAux z (n + k) := by
  induction k with
  | zero => intro n; simp
  | succ m ih =>
    intro n
    have hr : List.replicate (m + 1) '\n' ++ z = '\n' :: (List.replicate m '\n' ++ z) := by
      simp [List.replicate_succ]
    rw [hr]
    show collapseAux ('\n' :: (List.replicate m '\n' ++ z)) n = collapseAux z (n + (m + 1))
    simp only [collapseAux, if_pos rfl]
    rw [ih (n + 1)]
    have : n + 1 + m = n + (m + 1) := by omega
    rw [this]
    simp

/-- A pending run of three or more newlines before a non-newline (or the
end) is emitted as exactly two newlines. -/
theorem collapseAux_flush {n : Nat} (hn : 3 ≤ n) (b : List Char)
    (hb : b.head? ≠ some '\n') :
    collapseAux b n = List.replicate 2 '\n' ++ collapseNL b := by
  cases b with
  | nil => simp [collapseAux, collapseNL, if_pos hn]
  | cons c t =>
    have hc : c ≠ '\n' := by
      intro he
      exact hb (by simp [he])
    simp [collapseAux, collapseNL, if_pos hn, if_neg hc]

end ReadmeBot

/-! ## Concrete fixtures for the pipeline claims -/

namespace ReadmeBot

/-- The demo repository URL of the specification's examples. -/
def demoUrl : List Char := "https://github.com/alice/demo".toList

/-- A metadata response with every optional key absent. -/
def metaAbsent : Meta := ⟨none, none, none, none, none, none, none, none⟩

/-- An API oracle whose metadata request returns HTTP 404. -/
def api404 : RepoApi :=
  { metaStatus := 404, metaBody := "Not Found".toList, meta := metaAbsent,
    treeStatus := 200, treeBody := [], tree := [], file := fun _ => .fail }

/-- An API oracle where every request succeeds (empty repository). -/
def apiOk : RepoApi :=
  { metaStatus := 200, metaBody := [], meta := metaAbsent,
    treeStatus := 200, treeBody := [], tree := [], file := fun _ => .fail }

end ReadmeBot

namespace ReadmeBot

/-- **C1** (code_bug): the claim that `analyze_repo_sync` always returns
Markdown and never lets a raw exception escape is violated: when
`get_repo_data` fails (here: metadata HTTP 404), the `except` handler
evaluates `current_date` before its assignment and itself raises
`UnboundLocalError`, which propagates to the caller.  Only failures after
`current_date` is bound (e.g. a completion timeout) produce the error
report. -/
theorem analyzeRepoSync_escapes_on_early_failure :
    analyzeRepoSync api404 (.ok "# Demo".toList) demoUrl = .error .unboundLocal
    ∧ analyzeRepoSync apiOk (.exc "Request timed out.".toList) demoUrl =
        .ok (errorReport "Request timed out.".toList) := by
  exact ⟨rfl, rfl⟩

/-- **C6** (confirmed): URL parsing yields `alice`/`demo` for the plain and
trailing-slash URLs and fails (Python `ValueError`, aborting the run with
the wrapped error) when only one path segment follows the host. -/
theorem parseRepoUrl_examples :
    parseRepoUrl "https://github.com/alice/demo".toList =
      some ("alice".toList, "demo".toList)
    ∧ parseRepoUrl "https://github.com/alice/demo/".toList =
      some ("alice".toList, "demo".toList)
    ∧ parseRepoUrl "https://github.com/alice".toList = none
    ∧ (getRepoData apiOk "https://github.com/alice".toList).1 =
      .error (wrapErr unpackErrMsg) := by
  exact ⟨rfl, rfl, rfl, rfl⟩

/-- **C7** (code_bug): a non-200 metadata response is fatal and stops the
pipeline before any tree or per-file request — the request log of
`get_repo_data` is exactly `[meta]` — but the value the claim promises
(an error report containing the status code) is never returned:
`analyze_repo_sync`'s handler raises `UnboundLocalError` instead because
`current_date` is not yet assigned. -/
theorem metadata_failure_is_fatal :
    (∀ (api : RepoApi) (url : List Char) (p : List Char × List Char),
        parseRepoUrl url = some p → api.metaStatus ≠ 200 →
        (getRepoData api url).2 = [Req.meta])
    ∧ (getRepoData api404 demoUrl).2 = [Req.meta]
    ∧ analyzeRepoSync api404 (.exc "unreached".toList) demoUrl = .error .unboundLocal := by
  refine ⟨?_, rfl, rfl⟩
  intro api url p hp hst
  simp [getRepoData, hp, hst]

/-- Witness for `metadata_failure_is_fatal` at the concrete 404 oracle. -/
theorem metadata_failure_is_fatal_witness :
    (getRepoData api404 demoUrl).2 = [Req.meta] :=
  metadata_failure_is_fatal.1 api404 demoUrl ("alice".toList, "demo".toList)
    (by decide) (by decide)

end ReadmeBot

namespace ReadmeBot

/-- **C2** counterexample: `clean_output` is not idempotent.  Removing the
span `<think>a</think>` from `<thi<think>a</think>nk>b</think>` splices
the surrounding text into a fresh `<think>b</think>` pair, which only a
second pass removes. -/
theorem cleanOutput_not_idempotent :
    cleanOutput (cleanOutput "<thi<think>a</think>nk>b</think>".toList) ≠
      cleanOutput "<thi<think>a</think>nk>b</think>".toList := by decide

/-- **C2** (corrected): `clean_output` is idempotent on every input whose
sanitized output no longer contains the literal opening marker
`<think>` — the only way a second pass can differ is by removing a marker
pair assembled by the first removal. -/
theorem cleanOutput_idem_of_no_marker (x : List Char)
    (h : findIdx tOpen (cleanOutput x) = none) :
    cleanOutput (cleanOutput x) = cleanOutput x := by
  have h1 : removeThink (cleanOutput x) = cleanOutput x :=
    removeThink_eq_self_of_none h
  have h2 : noTriple (cleanOutput x) = true :=
    noTriple_of_sub (pyStrip_within _) (noTriple_collapseNL (removeThink x))
  have h3 : collapseNL (cleanOutput x) = cleanOutput x := collapseNL_eq_self h2
  show pyStrip (collapseNL (removeThink (cleanOutput x))) = cleanOutput x
  rw [h1, h3]
  exact pyStrip_idem (collapseNL (removeThink x))

/-- Witness for `cleanOutput_idem_of_no_marker` at a concrete input whose
output is marker-free. -/
theorem cleanOutput_idem_of_no_marker_witness :
    cleanOutput (cleanOutput "a\n\n\n\nb <think>hidden</think> c".toList) =
      cleanOutput "a\n\n\n\nb <think>hidden</think> c".toList :=
  cleanOutput_idem_of_no_marker _ (by decide)

end ReadmeBot

namespace ReadmeBot

/-- **C8** (confirmed): `clean_output` (i) removes every
`<think>...</think>`-delimited span, spanning newlines and with multiple
spans present (stated for segments free of `'<'`, so the markers shown
are the only ones); (ii) replaces every run of 3 or more consecutive
newlines by exactly two (stated compositionally for the collapsing pass:
a maximal run after a newline-free prefix collapses to two newlines while
the rest is processed recursively); (iii) leaves no run of three
newlines in its output; and (iv) returns output with no leading or
trailing whitespace (stripping again is the identity). -/
theorem cleanOutput_contract :
    (∀ a b c d e : List Char,
        (∀ ch ∈ a, ch ≠ '<') → (∀ ch ∈ b, ch ≠ '<') → (∀ ch ∈ c, ch ≠ '<') →
        (∀ ch ∈ d, ch ≠ '<') → (∀ ch ∈ e, ch ≠ '<') →
        cleanOutput (a ++ tOpen ++ b ++ tClose ++ c ++ tOpen ++ d ++ tClose ++ e) =
          cleanOutput (a ++ c ++ e))
    ∧ (∀ (a b : List Char) (n : Nat), 3 ≤ n → (∀ ch ∈ a, ch ≠ '\n') →
        b.head? ≠ some '\n' →
        collapseNL (a ++ List.replicate n '\n' ++ b) =
          a ++ List.replicate 2 '\n' ++ collapseNL b)
    ∧ (∀ s : List Char, ¬ (['\n', '\n', '\n'] <:+: cleanOutput s))
    ∧ (∀ s : List Char, pyStrip (cleanOutput s) = cleanOutput s) := by
  refine ⟨?_, ?_, ?_, ?_⟩
  · intro a b c d e ha hb hc hd he
    have h1 := removeThink_split a b (c ++ tOpen ++ d ++ tClose ++ e) ha hb
    have h2 := removeThink_split c d e hc hd
    have h3 : removeThink e = e := removeThink_eq_self_of_avoid he
    have h4 : removeThink (a ++ c ++ e) = a ++ c ++ e := by
      apply removeThink_eq_self_of_avoid
      intro ch hch
      rcases List.mem_append.mp hch with hch | hch
      · rcases List.mem_append.mp hch with hch | hch
        · exact ha ch hch
        · exact hc ch hch
      · exact he ch hch
    have hX : a ++ tOpen ++ b ++ tClose ++ c ++ tOpen ++ d ++ tClose ++ e =
        a ++ tOpen ++ b ++ tClose ++ (c ++ tOpen ++ d ++ tClose ++ e) := by
      simp [List.append_assoc]
    show pyStrip (collapseNL (removeThink _)) = pyStrip (collapseNL (removeThink _))
    rw [hX, h1, h2, h3, ← List.append_assoc, h4]
  · intro a b n hn ha hb
    rw [List.append_assoc]
    show collapseAux (a ++ (List.replicate n '\n' ++ b)) 0 = _
    rw [collapseAux_nonNL a _ ha, collapseAux_replicate n b 0, Nat.zero_add,
      collapseAux_flush hn b hb, List.append_assoc]
  · intro s htr
    have h2 : noTriple (cleanOutput s) = true :=
      noTriple_of_sub (pyStrip_within _) (noTriple_collapseNL (removeThink s))
    exact (noTriple_iff _).mp h2 htr
  · intro s
    exact pyStrip_idem (collapseNL (removeThink s))

/-- Witness for `cleanOutput_contract` at concrete inputs: two reasoning
spans (one spanning a newline) vanish, and a run of five newlines
collapses to two. -/
theorem cleanOutput_contract_witness :
    cleanOutput "x<think>r1\nr2</think>y<think>q</think>z".toList =
      cleanOutput "xyz".toList
    ∧ collapseNL "ab\n\n\n\n\ncd".toList = "ab\n\ncd".toList := by
  constructor
  · have h := cleanOutput_contract.1 "x".toList "r1\nr2".toList "y".toList
      "q".toList "z".toList (by decide) (by decide) (by decide) (by decide) (by decide)
    have e1 : "x<think>r1\nr2</think>y<think>q</think>z".toList =
        "x".toList ++ tOpen ++ "r1\nr2".toList ++ tClose ++ "y".toList ++ tOpen ++
          "q".toList ++ tClose ++ "z".toList := by decide
    have e2 : "xyz".toList = "x".toList ++ "y".toList ++ "z".toList := by decide
    rw [e1, e2]
    exact h
  · have h := cleanOutput_contract.2.1 "ab".toList "cd".toList 5 (by omega)
      (by decide) (by decide)
    have e1 : "ab\n\n\n\n\ncd".toList =
        "ab".toList ++ List.replicate 5 '\n' ++ "cd".toList := by decide
    have e2 : "ab\n\ncd".toList =
        "ab".toList ++ List.replicate 2 '\n' ++ collapseNL "cd".toList := by decide
    rw [e1, e2]
    exact h

end ReadmeBot

namespace ReadmeBot

/-- **C3** counterexample: the claimed iff omits the `if not path:
continue` guard of `llm.py` lines 104-105.  The entry with empty path and
type `blob` satisfies the type, extension and substring conditions, yet
no content fetch is issued for it. -/
theorem candidate_filter_cex :
    ¬ ((fetchIssued ⟨[], "blob".toList⟩ = true) ↔
        (TreeItem.type ⟨[], "blob".toList⟩ = "blob".toList ∧
         (∀ e ∈ binaryExtensions, ¬ e <:+ TreeItem.path ⟨[], "blob".toList⟩) ∧
         (∀ e ∈ excludedPaths, ¬ e <:+: TreeItem.path ⟨[], "blob".toList⟩))) := by
  intro h
  have hrhs : TreeItem.type ⟨[], "blob".toList⟩ = "blob".toList ∧
      (∀ e ∈ binaryExtensions, ¬ e <:+ TreeItem.path ⟨[], "blob".toList⟩) ∧
      (∀ e ∈ excludedPaths, ¬ e <:+: TreeItem.path ⟨[], "blob".toList⟩) := by
    refine ⟨rfl, ?_, ?_⟩
    · intro e he hs
      have : e = [] := List.suffix_nil.mp hs
      subst this
      exact absurd he (by decide)
    · intro e he hs
      have : e = [] := List.infix_nil.mp hs
      subst this
      exact absurd he (by decide)
  have := h.mpr hrhs
  exact absurd this (by decide)

/-- **C3** (corrected): a per-file content fetch is issued for an entry
iff its path is non-empty (the amendment forced by the guard), its type
is `blob`, no binary extension is a suffix of its path and no excluded
substring occurs anywhere in its path; an entry failing the filter
contributes no excerpt; and an entry with a binary extension or excluded
substring contributes no excerpt while still receiving its tree line. -/
theorem candidate_filter_characterization :
    ∀ (fetch : List Char → FetchResult) (it : TreeItem),
      (fetchIssued it = true ↔
        it.path ≠ [] ∧ it.type = "blob".toList ∧
        (∀ e ∈ binaryExtensions, ¬ e <:+ it.path) ∧
        (∀ e ∈ excludedPaths, ¬ e <:+: it.path))
      ∧ (fetchIssued it = false → processItem fetch it = [])
      ∧ (((∃ e ∈ binaryExtensions, e <:+ it.path) ∨
          (∃ e ∈ excludedPaths, e <:+: it.path)) →
          processItem fetch it = [] ∧
          treeLine it = "- ".toList ++ it.path ++ "\n".toList) := by
  intro fetch it
  have hiff : fetchIssued it = true ↔
      it.path ≠ [] ∧ it.type = "blob".toList ∧
      (∀ e ∈ binaryExtensions, ¬ e <:+ it.path) ∧
      (∀ e ∈ excludedPaths, ¬ e <:+: it.path) := by
    unfold fetchIssued isCandidate
    simp only [Bool.and_eq_true, Bool.not_eq_true', List.any_eq_false, beq_iff_eq,
      List.isEmpty_eq_false, List.isSuffixOf_iff_suffix, containsSub_correct]
    tauto
  refine ⟨hiff, ?_, ?_⟩
  · intro h
    simp [processItem, h]
  · intro hor
    have hf : fetchIssued it = false := by
      cases hfi : fetchIssued it
      · rfl
      · exfalso
        have hall := hiff.mp hfi
        rcases hor with ⟨e, he, hs⟩ | ⟨e, he, hs⟩
        · exact hall.2.2.1 e he hs
        · exact hall.2.2.2 e he hs
    have hpne : it.path ≠ [] := by
      rcases hor with ⟨e, he, hs⟩ | ⟨e, he, hs⟩
      · obtain ⟨a, ha⟩ := hs
        intro hp
        rw [hp] at ha
        have := (List.append_eq_nil.mp ha).2
        subst this
        exact absurd he (by decide)
      · obtain ⟨x, y, hxy⟩ := hs
        intro hp
        rw [hp] at hxy
        have h1 := List.append_eq_nil.mp hxy
        have h2 := (List.append_eq_nil.mp h1.1).2
        subst h2
        exact absurd he (by decide)
    refine ⟨by simp [processItem, hf], ?_⟩
    simp [treeLine, List.isEmpty_eq_false.mpr hpne]

/-- Witness for `candidate_filter_characterization`: a `.png` blob gets a
tree line but no excerpt. -/
theorem candidate_filter_characterization_witness :
    processItem (fun _ => .text "data".toList) ⟨"img/logo.png".toList, "blob".toList⟩ = []
    ∧ treeLine ⟨"img/logo.png".toList, "blob".toList⟩ =
        "- ".toList ++ "img/logo.png".toList ++ "\n".toList :=
  (candidate_filter_characterization (fun _ => .text "data".toList)
      ⟨"img/logo.png".toList, "blob".toList⟩).2.2
    (Or.inl ⟨".png".toList, by decide, ⟨"img/logo".toList, by decide⟩⟩)

/-- ASCII uppercasing; the uppercase variant of an extension is its
image under this map (e.g. `.png` becomes `.PNG`, `.sqlite3` becomes
`.SQLITE3`). -/
def asciiUpper (c : Char) : Char :=
  if 'a' ≤ c ∧ c ≤ 'z' then Char.ofNat (c.toNat - 32) else c

/-- **C10** (confirmed): extension matching is case-sensitive.  For every
binary extension, a blob whose path ends with the uppercase variant of
that extension is a suffix-match for none of the (lower-case) binary
extensions, so provided no excluded substring occurs in the path, a
content fetch is issued for it. -/
theorem uppercase_extension_is_candidate :
    ∀ ext p : List Char, ext ∈ binaryExtensions →
      ext.map asciiUpper <:+ p →
      (∀ x ∈ excludedPaths, ¬ x <:+: p) →
      fetchIssued ⟨p, "blob".toList⟩ = true := by
  intro ext p hmem hsuf hexc
  have hpairs : ∀ a ∈ binaryExtensions, ∀ b ∈ binaryExtensions,
      a.isSuffixOf (b.map asciiUpper) = false ∧
      (b.map asciiUpper).isSuffixOf a = false := by decide
  have hextne : ∀ a ∈ binaryExtensions, (a.map asciiUpper) ≠ [] := by decide
  have hne : p ≠ [] := by
    obtain ⟨a, ha⟩ := hsuf
    intro hp
    rw [hp] at ha
    exact hextne ext hmem (List.append_eq_nil.mp ha).2
  have h1 : p.isEmpty = false := List.isEmpty_eq_false.mpr hne
  have h2 : (binaryExtensions.any fun e => e.isSuffixOf p) = false := by
    rw [List.any_eq_false]
    intro e he hx
    have hsufe : e <:+ p := List.isSuffixOf_iff_suffix.mp hx
    rcases List.suffix_or_suffix_of_suffix hsufe hsuf with hcase | hcase
    · rw [← List.isSuffixOf_iff_suffix, (hpairs e he ext hmem).1] at hcase
      exact Bool.noConfusion hcase
    · rw [← List.isSuffixOf_iff_suffix, (hpairs e he ext hmem).2] at hcase
      exact Bool.noConfusion hcase
  have h3 : (excludedPaths.any fun e => containsSub e p) = false := by
    rw [List.any_eq_false]
    intro e he hx
    exact hexc e he ((containsSub_correct e p).mp hx)
  simp [fetchIssued, isCandidate, h1, h2, h3]

/-- Witness for `uppercase_extension_is_candidate`: the `.png` extension
uppercased at `logo.PNG`. -/
theorem uppercase_extension_is_candidate_witness :
    fetchIssued ⟨"logo.PNG".toList, "blob".toList⟩ = true := by
  have hc : ∀ e ∈ excludedPaths, containsSub e "logo.PNG".toList = false := by decide
  exact uppercase_extension_is_candidate ".png".toList "logo.PNG".toList (by decide)
    ⟨"logo".toList, by decide⟩
    (fun e he hinf => by
      have h2 := (containsSub_correct e "logo.PNG".toList).mpr hinf
      rw [hc e he] at h2
      exact Bool.noConfusion h2)

end ReadmeBot

namespace ReadmeBot

/-- **C4** (confirmed): a candidate file whose fetched content strips to
non-empty renders as its path heading followed by a fenced block holding
exactly the first 1000 characters of the content; the ellipsis marker
(with the closing fence) is a suffix of every excerpt, and when the
content is shorter than 1000 characters the fenced body is the whole
content still followed by the marker. -/
theorem excerpt_shape :
    ∀ (fetch : List Char → FetchResult) (it : TreeItem) (s : List Char),
      fetchIssued it = true → fetch it.path = .text s → pyStrip s ≠ [] →
      processItem fetch it = excerptFor it.path s
      ∧ (s.length ≤ 1000 →
          excerptFor it.path s =
            "\n### ".toList ++ it.path ++ "\n```\n".toList ++ s ++ "...\n```\n".toList)
      ∧ "...\n```\n".toList <:+ excerptFor it.path s := by
  intro fetch it s hf hfe hs
  refine ⟨?_, ?_, ?_⟩
  · simp [processItem, hf, hfe, hs]
  · intro hlen
    unfold excerptFor
    rw [List.take_of_length_le hlen]
  · refine ⟨"\n### ".toList ++ it.path ++ "\n```\n".toList ++ s.take 1000, ?_⟩
    simp [excerptFor, List.append_assoc]

/-- Witness for `excerpt_shape`: a short Python file keeps its full
content and the unconditional marker. -/
theorem excerpt_shape_witness :
    processItem (fun _ => .text "print(1)\n".toList)
        ⟨"main.py".toList, "blob".toList⟩ =
      excerptFor "main.py".toList "print(1)\n".toList :=
  (excerpt_shape (fun _ => .text "print(1)\n".toList)
      ⟨"main.py".toList, "blob".toList⟩ "print(1)\n".toList
      (by decide) rfl (by decide)).1

/-- **C5** (confirmed): when a candidate's per-file fetch fails (non-200
status or raised exception) or its payload fails UTF-8 decoding, the file
contributes no excerpt — the content block equals the one computed with
the entry removed, so the remaining entries are processed unchanged and
the pipeline never aborts — while the file keeps its line in the tree
block. -/
theorem per_file_failure_skipped :
    ∀ (fetch : List Char → FetchResult) (pre post : List TreeItem) (it : TreeItem),
      fetchIssued it = true →
      (fetch it.path = .fail ∨ fetch it.path = .binary) →
      contentBlock fetch (pre ++ it :: post) = contentBlock fetch (pre ++ post)
      ∧ (∃ x y, treeBlock (pre ++ it :: post) =
          x ++ ("- ".toList ++ it.path ++ "\n".toList) ++ y) := by
  intro fetch pre post it hfi hor
  have hzero : processItem fetch it = [] := by
    rcases hor with h | h <;> simp [processItem, hfi, h]
  have hpath : it.path ≠ [] := by
    have h := hfi
    unfold fetchIssued at h
    rw [Bool.and_eq_true, Bool.not_eq_true'] at h
    exact List.isEmpty_eq_false.mp h.1
  have htl : treeLine it = "- ".toList ++ it.path ++ "\n".toList := by
    simp [treeLine, List.isEmpty_eq_false.mpr hpath]
  constructor
  · unfold contentBlock contribs
    rw [List.map_append, List.flatten_append, List.map_cons, List.flatten_cons, hzero,
      List.map_append, List.flatten_append]
    simp
  · refine ⟨"File Structure:\n".toList ++ (pre.map treeLine).flatten,
      (post.map treeLine).flatten, ?_⟩
    unfold treeBlock
    rw [List.map_append, List.flatten_append, List.map_cons, List.flatten_cons, htl]
    simp [List.append_assoc]

/-- Witness for `per_file_failure_skipped`: a 404 on the only candidate
leaves the content block empty while the tree block lists the file. -/
theorem per_file_failure_skipped_witness :
    contentBlock (fun _ => FetchResult.fail)
        ([] ++ ⟨"main.py".toList, "blob".toList⟩ :: []) =
      contentBlock (fun _ => FetchResult.fail) ([] ++ []) :=
  (per_file_failure_skipped (fun _ => FetchResult.fail) [] []
      ⟨"main.py".toList, "blob".toList⟩ (by decide) (Or.inl rfl)).1

end ReadmeBot

namespace ReadmeBot

/-- `parts` occur as disjoint substrings of `s`, in the given order. -/
def occursInOrder : List (List Char) → List Char → Prop
  | [], _ => True
  | p :: ps, s => ∃ pre rest, s = pre ++ p ++ rest ∧ occursInOrder ps rest

theorem occursInOrder_here (p rest : List Char) {ps : List (List Char)}
    (h : occursInOrder ps rest) : occursInOrder (p :: ps) (p ++ rest) :=
  ⟨[], rest, rfl, h⟩

theorem occursInOrder_skip (x : List Char) {ps : List (List Char)} {s : List Char}
    (h : occursInOrder ps s) : occursInOrder ps (x ++ s) := by
  cases ps with
  | nil => trivial
  | cons p ps' =>
    obtain ⟨pre, rest, heq, h'⟩ := h
    exact ⟨x ++ pre, rest, by rw [heq]; simp [List.append_assoc], h'⟩

/-- **C9** (confirmed): the summary block contains, in fixed order, the
labelled name, description, primary language, comma-joined topics, star
count, fork count, creation timestamp and last-update timestamp, each
label followed by the rendered value with the documented fallback
substituted exactly when the key is absent. -/
theorem summaryBlock_fields (m : Meta) :
    occursInOrder
      ["- Name: ".toList, renderName m.name,
       "- Description: ".toList, m.description.getD "No description provided".toList,
       "- Primary Language: ".toList, m.language.getD "Not specified".toList,
       "- Topics: ".toList, joinComma (m.topics.getD ["None specified".toList]),
       "- Stars: ".toList, natToStr (m.stars.getD 0),
       "- Forks: ".toList, natToStr (m.forks.getD 0),
       "- Created: ".toList, m.createdAt.getD "Unknown".toList,
       "- Last Updated: ".toList, m.updatedAt.getD "Unknown".toList]
      (summaryBlock m) := by
  have key : summaryBlock m =
      "\n            Repository Information:\n            ".toList ++
      ("- Name: ".toList ++ (renderName m.name ++
      ("\n            ".toList ++
      ("- Description: ".toList ++ (m.description.getD "No description provided".toList ++
      ("\n            ".toList ++
      ("- Primary Language: ".toList ++ (m.language.getD "Not specified".toList ++
      ("\n            ".toList ++
      ("- Topics: ".toList ++ (joinComma (m.topics.getD ["None specified".toList]) ++
      ("\n            ".toList ++
      ("- Stars: ".toList ++ (natToStr (m.stars.getD 0) ++
      ("\n            ".toList ++
      ("- Forks: ".toList ++ (natToStr (m.forks.getD 0) ++
      ("\n            ".toList ++
      ("- Created: ".toList ++ (m.createdAt.getD "Unknown".toList ++
      ("\n            ".toList ++
      ("- Last Updated: ".toList ++ (m.updatedAt.getD "Unknown".toList ++
      "\n            ".toList))))))))))))))))))))))) := by
    simp [summaryBlock, List.append_assoc]
  rw [key]
  apply occursInOrder_skip
  apply occursInOrder_here
  apply occursInOrder_here
  apply occursInOrder_skip
  apply occursInOrder_here
  apply occursInOrder_here
  apply occursInOrder_skip
  apply occursInOrder_here
  apply occursInOrder_here
  apply occursInOrder_skip
  apply occursInOrder_here
  apply occursInOrder_here
  apply occursInOrder_skip
  apply occursInOrder_here
  apply occursInOrder_here
  apply occursInOrder_skip
  apply occursInOrder_here
  apply occursInOrder_here
  apply occursInOrder_skip
  apply occursInOrder_here
  apply occursInOrder_here
  apply occursInOrder_skip
  apply occursInOrder_here
  apply occursInOrder_here
  trivial

end ReadmeBot
